import Mathlib

/-!
# Verification of the thread-sweep benchmark scripts

Shallow embedding of `analysis/find_opt_threads.py` (the execution adapter
`run_java` and the sweep controller `sweep_threads`) and of the speedup
computation in `analysis/benchmark_and_plot.py` (`plot_results`), together
with proofs of the specified properties.

Modelling conventions:
* Python strings are modelled as `List Char`; `str.strip`, `str.split()`,
  `str.splitlines`, `str.replace`, `str.endswith`, `str.isdigit` and `int(...)`
  are translated below, restricted to ASCII data.
* Python floats are modelled by exact rationals `ℚ`; the float literal `1e-9`
  is modelled as the exact rational `1/10^9`.  Python raises
  `ZeroDivisionError` on float division by `0.0`; division is therefore
  guarded explicitly and surfaces as an error value.
* `math.inf` (the initial `best_mean`) is modelled by `Option ℚ` with `none`
  standing for positive infinity.
* Subprocess invocations are ambient nondeterminism: an oracle maps a
  concurrency level and a 1-based trial index to the external process result
  (exit code, stdout, stderr).  `run_java` is a pure function of the level and
  that process result.
* Fallible code returns `Except`; an uncaught Python exception is an `error`
  value naming the exception path.
-/

deriving instance DecidableEq for Except

namespace ThreadSweep

/-! ## Python string primitives -/

/-- `str.strip()`: drop whitespace from both ends. -/
def pyStrip (l : List Char) : List Char :=
  ((l.dropWhile Char.isWhitespace).reverse.dropWhile Char.isWhitespace).reverse

/-- Helper for `str.splitlines()`: accumulates the current line (reversed). -/
def splitlinesAux : List Char → List Char → List (List Char)
  | [], acc => if acc.isEmpty then [] else [acc.reverse]
  | [c], acc =>
    if c = '\n' ∨ c = '\r' then [acc.reverse]
    else [(c :: acc).reverse]
  | c1 :: c2 :: rest, acc =>
    if c1 = '\n' then acc.reverse :: splitlinesAux (c2 :: rest) []
    else if c1 = '\r' then
      if c2 = '\n' then acc.reverse :: splitlinesAux rest []
      else acc.reverse :: splitlinesAux (c2 :: rest) []
    else splitlinesAux (c2 :: rest) (c1 :: acc)

/-- `str.splitlines()` (line breaks `\n`, `\r`, `\r\n`; a trailing break does
not produce an empty final line, and `"".splitlines() = []`). -/
def splitlines (l : List Char) : List (List Char) :=
  splitlinesAux l []

/-- Helper for `str.split()` with no separator: split on whitespace runs,
dropping empty tokens; `acc` is the current token, reversed. -/
def pyTokensAux : List Char → List Char → List (List Char)
  | [], acc => if acc.isEmpty then [] else [acc.reverse]
  | c :: rest, acc =>
    if c.isWhitespace then
      if acc.isEmpty then pyTokensAux rest [] else acc.reverse :: pyTokensAux rest []
    else pyTokensAux rest (c :: acc)

/-- `line.split()`: whitespace-separated tokens. -/
def pyTokens (l : List Char) : List (List Char) :=
  pyTokensAux l []

/-- `tok.isdigit()` (ASCII): nonempty and all decimal digits. -/
def pyIsdigit (tok : List Char) : Bool :=
  !tok.isEmpty && tok.all Char.isDigit

/-- `tok.endswith("ms")`. -/
def endsWithMs (tok : List Char) : Bool :=
  match tok.reverse with
  | 's' :: 'm' :: _ => true
  | _ => false

/-- `tok.replace("ms", "")`: remove every (left-to-right, non-overlapping)
occurrence of `"ms"`. -/
def replaceMs : List Char → List Char
  | [] => []
  | [c] => [c]
  | c1 :: c2 :: rest =>
    if c1 = 'm' ∧ c2 = 's' then replaceMs rest
    else c1 :: replaceMs (c2 :: rest)

/-- Decimal value of a digit string. -/
def digitsToNat (l : List Char) : ℕ :=
  l.foldl (fun a c => a * 10 + (c.toNat - '0'.toNat)) 0

/-- Value of a nonempty all-digit string, `none` otherwise. -/
def digitsVal (l : List Char) : Option ℤ :=
  if !l.isEmpty && l.all Char.isDigit then some (digitsToNat l) else none

/-- `int(s)`: strip whitespace, optional sign, then a nonempty digit string
(underscore grouping is not modelled).  `none` models the `ValueError`. -/
def pyInt (s : List Char) : Option ℤ :=
  match pyStrip s with
  | [] => none
  | c :: rest =>
    if c = '+' then digitsVal rest
    else if c = '-' then (digitsVal rest).map (fun z => -z)
    else digitsVal (c :: rest)

/-- Does the list start with `"ms"` after optional whitespace?  This is the
tail test of the regex `(\d+)\s*ms` once the digit group is consumed. -/
def msAfterWs (l : List Char) : Bool :=
  match l.dropWhile Char.isWhitespace with
  | 'm' :: 's' :: _ => true
  | _ => false

/-- `re.search(r"(\d+)\s*ms", line)`: leftmost digit run that is followed,
after optional whitespace, by `"ms"`; returns the value of that (greedy,
maximal) digit run.  Scanning character by character is equivalent to
skipping a failed run whole, because every suffix of a failed digit run is
followed by the same non-matching tail. -/
def reSearchMs : List Char → Option ℕ
  | [] => none
  | c :: rest =>
    if c.isDigit then
      if msAfterWs (rest.dropWhile Char.isDigit) then
        some (digitsToNat (c :: rest.takeWhile Char.isDigit))
      else reSearchMs rest
    else reSearchMs rest

/-! ## The execution adapter `run_java` -/

/-- Result of one external `java` process invocation (ambient input of
`run_java`): exit code and captured standard output / standard error. -/
structure ProcResult where
  returncode : ℤ
  stdout : List Char
  stderr : List Char
  deriving DecidableEq, Repr

/-- Failures of one `run_java` invocation.  `execFailure` is the
`RuntimeError` raised on a non-zero exit status, after printing the failed
command and the captured output; `indexError` is the uncaught `IndexError` of
`splitlines()[-1]` on empty stripped stdout; `parseFailure` is the
`RuntimeError` raised when no time value can be extracted from the final
line. -/
inductive RunErr where
  | execFailure (cmd : List String) (stdout stderr : List Char)
  | indexError
  | parseFailure (line : List Char)
  deriving DecidableEq, Repr

/-- The command line `run_java` launches (paths written relative to the
repository root; `ROOT` resolution is not modelled). -/
def javaCmd (mainCls : String) (threads : ℕ) : List String :=
  ["java", "-cp", "target/classes", mainCls, "par", "data/Entrada01.txt",
   "out/primes_t" ++ toString threads ++ ".txt", toString threads]

/-- First parsing attempt of `run_java`: the last whitespace token that is all
digits or ends with `"ms"`, with every `"ms"` removed, fed to `int(...)`;
`none` covers both the `IndexError` of `[-1]` on no candidate and the
`ValueError` of `int`, which fall through to the regex. -/
def firstBranchTok (line : List Char) : Option ℤ :=
  match ((pyTokens line).filter fun tok => pyIsdigit tok || endsWithMs tok).getLast? with
  | none => none
  | some tok => pyInt (replaceMs tok)

/-- `run_java(main_class, threads)` as a function of the process result. -/
def runJava (mainCls : String) (threads : ℕ) (res : ProcResult) :
    Except RunErr ℤ :=
  if res.returncode ≠ 0 then
    .error (.execFailure (javaCmd mainCls threads) res.stdout res.stderr)
  else
    match (splitlines (pyStrip res.stdout)).getLast? with
    | none => .error .indexError
    | some line =>
      match firstBranchTok line with
      | some v => .ok v
      | none =>
        match reSearchMs line with
        | some n => .ok (n : ℤ)
        | none => .error (.parseFailure line)

/-! ## Sample statistics

`statistics.mean` is the exact arithmetic mean (it raises `StatisticsError`
on an empty list — that case is guarded in the sweep loop below);
`statistics.pstdev` is the square root of the population variance, which we
track by its square. -/

/-- `statistics.mean(times)` (meaningful only for nonempty lists; the sweep
loop errors out before calling it on an empty list). -/
def listMean (l : List ℤ) : ℚ :=
  ((l.sum : ℤ) : ℚ) / (l.length : ℚ)

/-- The square of `statistics.pstdev(times)`: population variance, mean of
squared deviations from the mean. -/
def pstdevSq (l : List ℤ) : ℚ :=
  ((l.map fun x => ((x : ℚ) - listMean l) ^ 2).sum) / (l.length : ℚ)

/-- The squared standard deviation the sweep reports for one level:
`statistics.pstdev(times) if len(times) > 1 else 0.0`, squared. -/
def levelStdSq (l : List ℤ) : ℚ :=
  if 1 < l.length then pstdevSq l else 0

/-- Modelled from the spec: the population (not Bessel-corrected) variance of
a sample list — squared deviations from the arithmetic mean, divided by the
sample count `N` (not `N − 1`). -/
def specPopVariance (l : List ℤ) : ℚ :=
  ((l.map fun x => ((x : ℚ) - (((l.sum : ℤ) : ℚ) / (l.length : ℚ))) ^ 2).sum) /
    (l.length : ℚ)

/-- Modelled from the spec: the Bessel-corrected (sample) variance, with
denominator `N − 1`; stated only to witness that the reported statistic is
the population variant. -/
def specBesselVariance (l : List ℤ) : ℚ :=
  ((l.map fun x => ((x : ℚ) - (((l.sum : ℤ) : ℚ) / (l.length : ℚ))) ^ 2).sum) /
    ((l.length : ℚ) - 1)

/-! ## The sweep controller `sweep_threads` -/

/-- One row of the `records` list: `{"threads": t, "run_idx": i, "ms": ms}`. -/
structure SweepRec where
  threads : ℕ
  run_idx : ℕ
  ms : ℤ
  deriving DecidableEq, Repr

/-- Failures that abort `sweep_threads`: a propagated `run_java` failure, the
`StatisticsError` of `statistics.mean([])` when `iters = 0`, and the
`ZeroDivisionError` of the relative-gain computation when `best_mean = 0`. -/
inductive SweepErr where
  | run (e : RunErr)
  | statisticsError
  | zeroDivision
  deriving DecidableEq, Repr

/-- The numerical tolerance `1e-9` of the strict-improvement test, modelled
as the exact rational. -/
def eps : ℚ := 1 / 1000000000

/-- Outcome of the per-level decision logic on `(best_mean, no_improve)`:
the updated state, whether the `break` fires, and the relative gain printed
by the new-best branch (`none` when that branch is not taken). -/
structure StepOut where
  best : Option ℚ
  noImprove : ℕ
  brk : Bool
  loggedGain : Option ℚ
  deriving DecidableEq, Repr

/-- Lines 127–145 of `find_opt_threads.py`: the decision logic run once per
level after `mean_t` is computed.  `best = none` models
`best_mean = math.inf`.  Division by a zero `best_mean` raises
`ZeroDivisionError` in Python (also for floats) and is surfaced as an
error. -/
def stepSweep (minGain : ℚ) (patience : ℕ) (best : Option ℚ) (noImprove : ℕ)
    (mean_t : ℚ) : Except SweepErr StepOut :=
  match best with
  | none =>
    -- `mean_t + 1e-9 < inf` always holds; `best_mean < math.inf` is false,
    -- so the logged gain is `1.0`.
    .ok ⟨some mean_t, 0, false, some 1⟩
  | some b =>
    if mean_t + eps < b then
      -- strict improvement; `gain = (best_mean - mean_t) / best_mean`
      if b = 0 then .error .zeroDivision
      else .ok ⟨some mean_t, 0, false, some ((b - mean_t) / b)⟩
    else
      -- `gain = (best_mean - mean_t) / best_mean` (best_mean is finite here)
      if b = 0 then .error .zeroDivision
      else
        let gain := (b - mean_t) / b
        if minGain ≤ gain then
          .ok ⟨some b, 0, false, none⟩
        else
          .ok ⟨some b, noImprove + 1, decide (patience ≤ noImprove + 1), none⟩

/-- The records appended while collecting one level's samples: 1-based run
indices paired with the measured times, in collection order. -/
def levelRecords (t : ℕ) (times : List ℤ) : List SweepRec :=
  times.enum.map fun p => ⟨t, p.1 + 1, p.2⟩

/-- The inner trial loop, iterated over the list of 1-based trial indices:
each trial invokes `run_java`; the first failure propagates. -/
def collectList (oracle : ℕ → ℕ → ProcResult) (mainCls : String) (t : ℕ) :
    List ℕ → Except RunErr (List ℤ)
  | [] => .ok []
  | i :: is =>
    match runJava mainCls t (oracle t i) with
    | .error e => .error e
    | .ok ms =>
      match collectList oracle mainCls t is with
      | .error e => .error e
      | .ok rest => .ok (ms :: rest)

/-- `for i in range(1, iters + 1): ms = run_java(main_class, t); ...` -/
def collectTimes (oracle : ℕ → ℕ → ProcResult) (mainCls : String)
    (t iters : ℕ) : Except RunErr (List ℤ) :=
  collectList oracle mainCls t (List.range' 1 iters)

/-- The outer level loop of `sweep_threads`, iterated over the remaining
levels, threading the accumulated records and the `(best_mean, no_improve)`
state.  A `break` returns the records accumulated so far (the breaking
level's records included); an exception aborts the whole sweep. -/
def sweepLevels (oracle : ℕ → ℕ → ProcResult) (mainCls : String)
    (iters : ℕ) (minGain : ℚ) (patience : ℕ) :
    List ℕ → List SweepRec → Option ℚ → ℕ → Except SweepErr (List SweepRec)
  | [], recs, _, _ => .ok recs
  | t :: ts, recs, best, noImprove =>
    match collectTimes oracle mainCls t iters with
    | .error e => .error (.run e)
    | .ok times =>
      if times.isEmpty then .error .statisticsError
      else
        match stepSweep minGain patience best noImprove (listMean times) with
        | .error e => .error e
        | .ok o =>
          if o.brk then .ok (recs ++ levelRecords t times)
          else sweepLevels oracle mainCls iters minGain patience ts
            (recs ++ levelRecords t times) o.best o.noImprove

/-- `sweep_threads(main_class, iters, tmin, tmax, patience, min_gain)`:
levels `range(tmin, tmax + 1)` from the empty accumulator,
`best_mean = math.inf`, `no_improve = 0`. -/
def sweepThreads (oracle : ℕ → ℕ → ProcResult) (mainCls : String)
    (iters : ℕ) (minGain : ℚ) (patience tmin tmax : ℕ) :
    Except SweepErr (List SweepRec) :=
  sweepLevels oracle mainCls iters minGain patience
    (List.range' tmin (tmax + 1 - tmin)) [] none 0

/-! ## The speedup computation of `benchmark_and_plot.py` -/

/-- One row of `out/results.csv` as consumed by `plot_results` (columns the
speedup computation uses). -/
structure CsvRow where
  version : String
  threads : ℕ
  ms : ℚ
  deriving DecidableEq, Repr

/-- The `ms` values of one `(version, threads)` group. -/
def groupMs (rows : List CsvRow) (v : String) (t : ℕ) : List ℚ :=
  (rows.filter fun r => r.version = v ∧ r.threads = t).map fun r => r.ms

/-- The per-group mean of `df.groupby(["version","threads"])["ms"].mean()`. -/
def groupMean (rows : List CsvRow) (v : String) (t : ℕ) : ℚ :=
  (groupMs rows v t).sum / ((groupMs rows v t).length : ℚ)

/-- The distinct `(version, threads)` configurations present in the data
(the index of the grouped frame; its sort order is irrelevant here). -/
def configsOf (rows : List CsvRow) : List (String × ℕ) :=
  (rows.map fun r => (r.version, r.threads)).dedup

/-- `plot_results` aborts (`sys.exit(2)`) when the `(seq, 1)` baseline group
is absent. -/
inductive PlotErr where
  | noBaseline
  deriving DecidableEq, Repr

/-- The speedup table of `plot_results`: after checking that the baseline
group `("seq", 1)` is present, each configuration is mapped to
`seq_mean / configuration_mean`. -/
def speedupTable (rows : List CsvRow) :
    Except PlotErr (List (String × ℕ × ℚ)) :=
  if (rows.filter fun r => r.version = "seq" ∧ r.threads = 1).isEmpty then
    .error .noBaseline
  else
    .ok ((configsOf rows).map fun c =>
      (c.1, c.2, groupMean rows "seq" 1 / groupMean rows c.1 c.2))

/-! ## Oracles for concrete runs -/

/-- A process whose stdout is the given string, exiting successfully. -/
def okProc (s : String) : ProcResult :=
  ⟨0, s.toList, []⟩

/-- An oracle whose level-1 runs report `0 ms` and whose later runs report
`5 ms` (used to exhibit the zero-mean division hazard). -/
def zeroMeanOracle : ℕ → ℕ → ProcResult :=
  fun t _ => if t = 1 then okProc "0 ms" else okProc "5 ms"

/-- An oracle that fails (non-zero exit, empty output) at every invocation;
in particular trial 1 of level 1 fails. -/
def failAtFirstOracle : ℕ → ℕ → ProcResult :=
  fun _ _ => ⟨1, [], []⟩

/-- An oracle that succeeds with `7 ms` on every first trial and fails (with
the same process result as `failAtFirstOracle`) from trial 2 on. -/
def failAtSecondOracle : ℕ → ℕ → ProcResult :=
  fun _ i => if i = 1 then okProc "7 ms" else ⟨1, [], []⟩

/-! ## Basic lemmas -/

theorem eps_pos : 0 < eps := by norm_num [eps]

theorem levelRecords_map_ms (t : ℕ) (l : List ℤ) :
    (levelRecords t l).map SweepRec.ms = l := by
  simp only [levelRecords, List.map_map]
  have : (SweepRec.ms ∘ fun p : ℕ × ℤ => SweepRec.mk t (p.1 + 1) p.2) = Prod.snd := by
    funext p; rfl
  rw [this, List.enum_map_snd]

theorem levelRecords_map_run_idx (t : ℕ) (l : List ℤ) :
    (levelRecords t l).map SweepRec.run_idx = List.range' 1 l.length := by
  simp only [levelRecords, List.map_map]
  have h1 : (SweepRec.run_idx ∘ fun p : ℕ × ℤ => SweepRec.mk t (p.1 + 1) p.2) =
      (fun n => n + 1) ∘ Prod.fst := by
    funext p; rfl
  rw [h1, ← List.map_map, List.enum_map_fst, List.range'_eq_map_range]
  simp [Nat.add_comm]

theorem levelRecords_threads {t : ℕ} {l : List ℤ} {r : SweepRec}
    (h : r ∈ levelRecords t l) : r.threads = t := by
  simp only [levelRecords, List.mem_map] at h
  obtain ⟨p, _, rfl⟩ := h
  rfl

theorem levelRecords_length (t : ℕ) (l : List ℤ) :
    (levelRecords t l).length = l.length := by
  simp [levelRecords]

theorem levelRecords_ne_nil {t : ℕ} {l : List ℤ} (h : l ≠ []) :
    levelRecords t l ≠ [] := by
  intro hc
  have := levelRecords_length t l
  rw [hc] at this
  exact h (List.length_eq_zero.mp this.symm)

/-! ## Parsing lemmas for the execution adapter -/

theorem mem_pyStrip {c : Char} {l : List Char} (h : c ∈ pyStrip l) : c ∈ l := by
  simp only [pyStrip, List.mem_reverse] at h
  have h1 : c ∈ (l.dropWhile Char.isWhitespace).reverse :=
    (List.dropWhile_sublist Char.isWhitespace).mem h
  rw [List.mem_reverse] at h1
  exact (List.dropWhile_sublist Char.isWhitespace).mem h1

theorem pyTokensAux_chars :
    ∀ (l acc : List Char) (t : List Char), t ∈ pyTokensAux l acc →
      ∀ c ∈ t, c ∈ l ∨ c ∈ acc := by
  intro l
  induction l with
  | nil =>
    intro acc t ht c hc
    simp only [pyTokensAux] at ht
    by_cases ha : acc.isEmpty
    · simp [ha] at ht
    · simp [ha] at ht
      subst ht
      exact Or.inr (List.mem_reverse.mp hc)
  | cons a rest ih =>
    intro acc t ht c hc
    simp only [pyTokensAux] at ht
    by_cases hw : a.isWhitespace
    · rw [if_pos hw] at ht
      by_cases ha : acc.isEmpty
      · rw [if_pos ha] at ht
        rcases ih [] t ht c hc with h | h
        · exact Or.inl (List.mem_cons_of_mem a h)
        · simp at h
      · rw [if_neg ha] at ht
        rcases List.mem_cons.mp ht with rfl | ht2
        · exact Or.inr (List.mem_reverse.mp hc)
        · rcases ih [] t ht2 c hc with h | h
          · exact Or.inl (List.mem_cons_of_mem a h)
          · simp at h
    · rw [if_neg hw] at ht
      rcases ih (a :: acc) t ht c hc with h | h
      · exact Or.inl (List.mem_cons_of_mem a h)
      · rcases List.mem_cons.mp h with rfl | h2
        · exact Or.inl (List.mem_cons_self _ _)
        · exact Or.inr h2

theorem pyTokens_chars {l t : List Char} (ht : t ∈ pyTokens l) :
    ∀ c ∈ t, c ∈ l := by
  intro c hc
  rcases pyTokensAux_chars l [] t ht c hc with h | h
  · exact h
  · simp at h

theorem replaceMs_chars : ∀ (l : List Char), ∀ c ∈ replaceMs l, c ∈ l
  | [] => by simp [replaceMs]
  | [a] => by simp [replaceMs]
  | a :: b :: rest => by
    intro c hc
    simp only [replaceMs] at hc
    by_cases h : a = 'm' ∧ b = 's'
    · rw [if_pos h] at hc
      exact List.mem_cons_of_mem a (List.mem_cons_of_mem b (replaceMs_chars rest c hc))
    · rw [if_neg h] at hc
      rcases List.mem_cons.mp hc with rfl | hc2
      · exact (List.mem_cons_self _ _)
      · exact List.mem_cons_of_mem a (replaceMs_chars (b :: rest) c hc2)

theorem digitsVal_has_digit {l : List Char} {v : ℤ} (h : digitsVal l = some v) :
    ∃ c ∈ l, c.isDigit = true := by
  simp only [digitsVal] at h
  by_cases hg : (!l.isEmpty && l.all Char.isDigit) = true
  · rcases l with _ | ⟨a, rest⟩
    · simp at hg
    · simp only [List.all_cons, Bool.and_eq_true] at hg
      exact ⟨a, (List.mem_cons_self _ _), hg.2.1⟩
  · rw [if_neg hg] at h
    exact absurd h (by simp)

theorem pyInt_has_digit {s : List Char} {v : ℤ} (h : pyInt s = some v) :
    ∃ c ∈ s, c.isDigit = true := by
  simp only [pyInt] at h
  rcases hs : pyStrip s with _ | ⟨a, rest⟩ <;> simp only [hs] at h
  · exact absurd h (by simp)
  · have hsub : ∀ c ∈ a :: rest, c ∈ s := by
      intro c hc
      exact mem_pyStrip (hs ▸ hc)
    by_cases h1 : a = '+'
    · rw [if_pos h1] at h
      obtain ⟨c, hc, hd⟩ := digitsVal_has_digit h
      exact ⟨c, hsub c (List.mem_cons_of_mem a hc), hd⟩
    · rw [if_neg h1] at h
      by_cases h2 : a = '-'
      · rw [if_pos h2] at h
        rcases ho : digitsVal rest with _ | w <;> rw [ho] at h
        · exact absurd h (by simp)
        · obtain ⟨c, hc, hd⟩ := digitsVal_has_digit ho
          exact ⟨c, hsub c (List.mem_cons_of_mem a hc), hd⟩
      · rw [if_neg h2] at h
        obtain ⟨c, hc, hd⟩ := digitsVal_has_digit h
        exact ⟨c, hsub c hc, hd⟩

theorem reSearchMs_none {l : List Char} (h : ∀ c ∈ l, c.isDigit = false) :
    reSearchMs l = none := by
  induction l with
  | nil => rfl
  | cons a rest ih =>
    simp only [reSearchMs]
    rw [if_neg (by simp [h a (List.mem_cons_self _ _)])]
    exact ih fun c hc => h c (List.mem_cons_of_mem a hc)

theorem firstBranchTok_none {line : List Char}
    (h : ∀ c ∈ line, c.isDigit = false) : firstBranchTok line = none := by
  simp only [firstBranchTok]
  rcases hlast : ((pyTokens line).filter
      fun tok => pyIsdigit tok || endsWithMs tok).getLast? with _ | tok
  · rfl
  · have htok : tok ∈ pyTokens line :=
      List.mem_of_mem_filter (List.mem_of_mem_getLast? hlast)
    rcases ho : pyInt (replaceMs tok) with _ | v
    · exact ho
    · obtain ⟨c, hc, hd⟩ := pyInt_has_digit ho
      have : c ∈ line := pyTokens_chars htok c (replaceMs_chars tok c hc)
      rw [h c this] at hd
      exact absurd hd (by simp)

/-- First `dropWhile` step: a head not satisfying the predicate fixes the
whole list. -/
theorem dropWhile_eq_self_of_head {p : Char → Bool} :
    ∀ {l : List Char}, (∀ c ∈ l, p c = false) → List.dropWhile p l = l
  | [], _ => rfl
  | a :: rest, h => by
    simp only [List.dropWhile]
    rw [h a (List.mem_cons_self _ _)]

theorem digit_not_ws {c : Char} (h : c.isDigit = true) :
    c.isWhitespace = false := by
  by_contra hw
  rw [Bool.not_eq_false] at hw
  simp only [Char.isWhitespace, Bool.or_eq_true, decide_eq_true_eq] at hw
  rcases hw with ((rfl | rfl) | rfl) | rfl <;> exact absurd h (by decide)

theorem pyStrip_all_digits {l : List Char} (h : ∀ c ∈ l, c.isDigit = true) :
    pyStrip l = l := by
  simp only [pyStrip]
  rw [dropWhile_eq_self_of_head fun c hc => digit_not_ws (h c hc)]
  rw [dropWhile_eq_self_of_head fun c hc =>
    digit_not_ws (h c (List.mem_reverse.mp hc))]
  exact List.reverse_reverse l

theorem splitlinesAux_no_newline :
    ∀ (l acc : List Char), (∀ c ∈ l, c ≠ '\n' ∧ c ≠ '\r') → l ≠ [] →
      splitlinesAux l acc = [acc.reverse ++ l]
  | [], _, _, hne => absurd rfl hne
  | [a], acc, h, _ => by
    simp only [splitlinesAux]
    rw [if_neg (by
      rcases h a (List.mem_cons_self _ _) with ⟨h1, h2⟩
      simp [h1, h2])]
    simp
  | a :: b :: rest, acc, h, _ => by
    simp only [splitlinesAux]
    rcases h a (List.mem_cons_self _ _) with ⟨h1, h2⟩
    rw [if_neg h1, if_neg h2]
    rw [splitlinesAux_no_newline (b :: rest) (a :: acc)
      (fun c hc => h c (List.mem_cons_of_mem a hc)) (by simp)]
    simp

theorem pyTokensAux_no_ws :
    ∀ (l acc : List Char), (∀ c ∈ l, c.isWhitespace = false) → l ≠ [] →
      pyTokensAux l acc = [acc.reverse ++ l]
  | [], _, _, hne => absurd rfl hne
  | a :: rest, acc, h, _ => by
    simp only [pyTokensAux]
    rw [if_neg (by simp [h a (List.mem_cons_self _ _)])]
    rcases hr : rest with _ | ⟨b, rest2⟩
    · simp [pyTokensAux]
    · rw [← hr, pyTokensAux_no_ws rest (a :: acc)
        (fun c hc => h c (List.mem_cons_of_mem a hc)) (by simp [hr])]
      simp

theorem replaceMs_all_digits :
    ∀ (l : List Char), (∀ c ∈ l, c.isDigit = true) → replaceMs l = l
  | [] , _ => rfl
  | [a], _ => rfl
  | a :: b :: rest, h => by
    simp only [replaceMs]
    rw [if_neg (by
      rintro ⟨rfl, -⟩
      exact absurd (h 'm' (List.mem_cons_self _ _)) (by decide))]
    rw [replaceMs_all_digits (b :: rest) fun c hc => h c (List.mem_cons_of_mem a hc)]

theorem pyInt_all_digits {l : List Char} (hne : l ≠ [])
    (h : ∀ c ∈ l, c.isDigit = true) :
    pyInt l = some ((digitsToNat l : ℕ) : ℤ) := by
  rcases l with _ | ⟨a, rest⟩
  · exact absurd rfl hne
  · have ha := h a (List.mem_cons_self _ _)
    simp only [pyInt, pyStrip_all_digits h]
    rw [if_neg (by rintro rfl; exact absurd ha (by decide)),
      if_neg (by rintro rfl; exact absurd ha (by decide))]
    simp only [digitsVal]
    rw [if_pos (by simp_all [List.all_eq_true])]

/-- **C6** (Execution Adapter failure behavior): a non-zero exit status
raises an execution failure carrying the failed command; a zero exit whose
final stdout line holds no digit raises a parse failure (never a silent
zero); and parsing succeeds on a bare numeric token (returning its
nonnegative value) as well as on `"ms"`-suffixed or `"ms"`-marked forms,
e.g. `"Paralelo (10 threads): 2055 ms"` and `"2055ms"` both parse to
`2055`. -/
theorem C6_execution_adapter :
    (∀ (mc : String) (t : ℕ) (res : ProcResult), res.returncode ≠ 0 →
      runJava mc t res = .error (.execFailure (javaCmd mc t) res.stdout res.stderr)) ∧
    (∀ (mc : String) (t : ℕ) (res : ProcResult) (line : List Char),
      res.returncode = 0 →
      (splitlines (pyStrip res.stdout)).getLast? = some line →
      (∀ c ∈ line, c.isDigit = false) →
      runJava mc t res = .error (.parseFailure line)) ∧
    (∀ (mc : String) (t : ℕ) (ds err : List Char), ds ≠ [] →
      (∀ c ∈ ds, c.isDigit = true) →
      runJava mc t ⟨0, ds, err⟩ = .ok ((digitsToNat ds : ℕ) : ℤ)) ∧
    runJava "app.Main" 10 (okProc "Paralelo (10 threads): 2055 ms") = .ok 2055 ∧
    runJava "app.Main" 1 (okProc "2055ms") = .ok 2055 := by
  refine ⟨?_, ?_, ?_, by decide, by decide⟩
  · intro mc t res h
    simp only [runJava]
    rw [if_pos h]
  · intro mc t res line h0 hlast hnod
    simp only [runJava, h0, hlast, firstBranchTok_none hnod, reSearchMs_none hnod]
    simp
  · intro mc t ds err hne h
    have hnews : ∀ c ∈ ds, c ≠ '\n' ∧ c ≠ '\r' := by
      intro c hc
      constructor <;> (rintro rfl; exact absurd (h _ hc) (by decide))
    have hnws : ∀ c ∈ ds, c.isWhitespace = false := fun c hc => digit_not_ws (h c hc)
    have hsplit : splitlines ds = [ds] := by
      rw [splitlines, splitlinesAux_no_newline ds [] hnews hne]
      simp
    have hdig : pyIsdigit ds = true := by
      simp [pyIsdigit, List.all_eq_true, List.isEmpty_iff, hne]
      exact h
    have hfb : firstBranchTok ds = some ((digitsToNat ds : ℕ) : ℤ) := by
      simp only [firstBranchTok, pyTokens, pyTokensAux_no_ws ds [] hnws hne,
        List.reverse_nil, List.nil_append, List.filter, hdig, Bool.true_or,
        List.getLast?_singleton, replaceMs_all_digits ds h,
        pyInt_all_digits hne h]
    simp only [runJava, pyStrip_all_digits h, hsplit]
    simp [hfb]

/-! ## Step-level claims -/

/-- **C1** (Sweep Controller strict-improvement step): at any level whose
mean time `m` (nonnegative, per the data model) satisfies the strict
improvement test `m + ε < best_mean`, the decision step sets the best mean to
`m`, resets the no-improvement counter to `0`, does not break, and logs the
relative gain `(old_best − m) / old_best` when a prior (finite) best existed,
and `1.0` (100%) when `best_mean` was still infinite. -/
theorem C1_strict_improvement (mg : ℚ) (p ni : ℕ) (m : ℚ) (hm : 0 ≤ m) :
    (∀ b : ℚ, m + eps < b →
      stepSweep mg p (some b) ni m = .ok ⟨some m, 0, false, some ((b - m) / b)⟩) ∧
    stepSweep mg p none ni m = .ok ⟨some m, 0, false, some 1⟩ := by
  constructor
  · intro b hlt
    have hb : b ≠ 0 := by
      have : (0 : ℚ) < b := lt_of_le_of_lt (by linarith [eps_pos]) hlt
      exact ne_of_gt this
    simp only [stepSweep]
    rw [if_pos hlt, if_neg hb]
  · rfl

/-- Witness for C1: a concrete improving step (`best = 5`, `m = 1`) takes the
new-best branch with gain `(5 − 1)/5`. -/
theorem C1_witness :
    stepSweep (2/100) 2 (some 5) 1 1 = .ok ⟨some 1, 0, false, some ((5 - 1) / 5)⟩ :=
  (C1_strict_improvement (2/100) 2 1 1 (by norm_num)).1 5 (by norm_num [eps])

/-- **C3** (dead gain branch): when `min_gain > 0` and the current best mean
exceeds `ε / min_gain`, any level failing the strict-improvement test has
relative gain below `min_gain`, so the gain branch (counter reset without a
strict improvement) is never taken: the step increments the counter
instead. -/
theorem C3_dead_gain_branch (mg : ℚ) (p ni : ℕ) (b m : ℚ)
    (hmg : 0 < mg) (hb : eps / mg < b) (hni : ¬(m + eps < b)) :
    (b - m) / b < mg ∧
    stepSweep mg p (some b) ni m =
      .ok ⟨some b, ni + 1, decide (p ≤ ni + 1), none⟩ := by
  have hb0 : 0 < b := lt_trans (div_pos eps_pos hmg) hb
  have hgain : (b - m) / b < mg := by
    have h1 : b - m ≤ eps := by linarith [not_lt.mp hni]
    have h2 : eps < mg * b := by
      have := (div_lt_iff₀ hmg).mp hb
      linarith
    rw [div_lt_iff₀ hb0]
    linarith
  refine ⟨hgain, ?_⟩
  simp only [stepSweep]
  rw [if_neg hni, if_neg (ne_of_gt hb0), if_neg (not_le.mpr hgain)]

/-- Witness for C3: with `min_gain = 0.02` and `best = 10 > ε/min_gain`, a
level with mean `10` fails the strict test and its gain `0` stays below
`min_gain`; the counter is incremented to `2`, meeting `patience = 2`. -/
theorem C3_witness :
    (10 - 10 : ℚ) / 10 < 2/100 ∧
    stepSweep (2/100) 2 (some 10) 1 10 = .ok ⟨some 10, 2, decide (2 ≤ 2), none⟩ :=
  C3_dead_gain_branch (2/100) 2 1 10 10 (by norm_num)
    (by norm_num [eps]) (by norm_num [eps])

/-- **C9** (zero-mean division hazard): once `best_mean = 0`, a later level
evaluated without strict improvement makes the gain computation divide by
zero, aborting the sweep with a `ZeroDivisionError`; the computation is safe
whenever the recorded best mean is strictly positive.  A concrete sweep
(level 1 measures `0 ms`, level 2 measures `5 ms`) reaches the error. -/
theorem C9_zero_mean_division :
    (∀ (mg : ℚ) (p ni : ℕ) (m : ℚ), ¬(m + eps < 0) →
      stepSweep mg p (some 0) ni m = .error .zeroDivision) ∧
    (∀ (mg : ℚ) (p ni : ℕ) (b m : ℚ), 0 < b →
      ∃ o, stepSweep mg p (some b) ni m = .ok o) ∧
    sweepThreads zeroMeanOracle "app.Main" 1 (2/100) 2 1 2 =
      .error .zeroDivision := by
  refine ⟨?_, ?_, ?_⟩
  · intro mg p ni m hm
    simp only [stepSweep]
    rw [if_neg hm]
    simp
  · intro mg p ni b m hb
    simp only [stepSweep]
    by_cases h1 : m + eps < b
    · rw [if_pos h1, if_neg (ne_of_gt hb)]
      exact ⟨_, rfl⟩
    · rw [if_neg h1, if_neg (ne_of_gt hb)]
      by_cases h2 : mg ≤ (b - m) / b
      · rw [if_pos h2]; exact ⟨_, rfl⟩
      · rw [if_neg h2]; exact ⟨_, rfl⟩
  · have h1 : collectTimes zeroMeanOracle "app.Main" 1 1 = .ok [0] := by decide
    have h2 : collectTimes zeroMeanOracle "app.Main" 2 1 = .ok [5] := by decide
    have hm1 : listMean [0] = 0 := by norm_num [listMean]
    have hm2 : listMean [5] = 5 := by norm_num [listMean]
    have hs2 : stepSweep (2/100) 2 (some 0) 0 5 = .error .zeroDivision := by
      simp only [stepSweep]
      rw [if_neg (by norm_num [eps])]
      simp
    simp only [sweepThreads, show (2 + 1 - 1 : ℕ) = 2 from rfl,
      show List.range' 1 2 = [1, 2] from rfl, sweepLevels, h1, h2]
    norm_num [hm1, hm2, stepSweep, eps, hs2, sweepLevels]

/-- Witness for C9: both hypothesis-bearing conjuncts applied at concrete
inputs — the zero-best step errors at mean `5`, and a positive best `10`
yields a successful step. -/
theorem C9_witness :
    stepSweep (2/100) 2 (some 0) 1 5 = .error .zeroDivision ∧
    ∃ o, stepSweep (2/100) 2 (some 10) 1 5 = .ok o :=
  ⟨C9_zero_mean_division.1 (2/100) 2 1 5 (by norm_num [eps]),
   C9_zero_mean_division.2.1 (2/100) 2 1 10 5 (by norm_num)⟩

/-! ## Loop lemmas for the sample collector and the sweep -/

theorem collectList_ok {oracle : ℕ → ℕ → ProcResult} {mainCls : String}
    {t : ℕ} {v : ℕ → ℤ} :
    ∀ {is : List ℕ}, (∀ i ∈ is, runJava mainCls t (oracle t i) = .ok (v i)) →
      collectList oracle mainCls t is = .ok (is.map v)
  | [], _ => rfl
  | i :: is, h => by
    simp only [collectList, h i (List.mem_cons_self _ _),
      collectList_ok fun j hj => h j (List.mem_cons_of_mem i hj), List.map_cons]

theorem collectList_length {oracle : ℕ → ℕ → ProcResult} {mainCls : String}
    {t : ℕ} : ∀ {is : List ℕ} {ts : List ℤ},
      collectList oracle mainCls t is = .ok ts → ts.length = is.length := by
  intro is
  induction is with
  | nil =>
    intro ts h
    simp only [collectList] at h
    cases h
    rfl
  | cons i is ih =>
    intro ts h
    simp only [collectList] at h
    rcases hr : runJava mainCls t (oracle t i) with e | ms <;> rw [hr] at h
    · exact absurd h (by simp)
    · rcases hc : collectList oracle mainCls t is with e | rest <;> rw [hc] at h
      · exact absurd h (by simp)
      · cases h
        simp [ih hc]

theorem collectList_error_mem {oracle : ℕ → ℕ → ProcResult} {mainCls : String}
    {t : ℕ} : ∀ {is : List ℕ} {e : RunErr},
      collectList oracle mainCls t is = .error e →
      ∃ i ∈ is, runJava mainCls t (oracle t i) = .error e := by
  intro is
  induction is with
  | nil =>
    intro e h
    exact absurd h (by simp [collectList])
  | cons i is ih =>
    intro e h
    simp only [collectList] at h
    rcases hr : runJava mainCls t (oracle t i) with e' | ms <;> rw [hr] at h
    · cases h
      exact ⟨i, List.mem_cons_self _ _, hr⟩
    · rcases hc : collectList oracle mainCls t is with e' | rest <;> rw [hc] at h
      · cases h
        obtain ⟨j, hj, hje⟩ := ih hc
        exact ⟨j, List.mem_cons_of_mem i hj, hje⟩
      · exact absurd h (by simp)

theorem stepSweep_error_eq {mg : ℚ} {p ni : ℕ} {b : Option ℚ} {m : ℚ}
    {x : SweepErr} (h : stepSweep mg p b ni m = .error x) : x = .zeroDivision := by
  rcases b with _ | b0
  · exact absurd h (by simp [stepSweep])
  · simp only [stepSweep] at h
    by_cases h1 : m + eps < b0 <;> simp only [h1, if_true, if_false] at h <;>
      by_cases h2 : b0 = 0 <;> simp only [h2, if_true, if_false] at h
    · cases h; rfl
    · exact absurd h (by simp)
    · cases h; rfl
    · by_cases h3 : mg ≤ (b0 - m) / b0 <;> simp only [h3, if_true, if_false] at h <;>
        exact absurd h (by simp)

theorem sweepLevels_cons_err {oracle : ℕ → ℕ → ProcResult} {mainCls : String}
    {iters : ℕ} {mg : ℚ} {p t : ℕ} {ts : List ℕ} {recs : List SweepRec}
    {best : Option ℚ} {ni : ℕ} {e : RunErr}
    (h : collectTimes oracle mainCls t iters = .error e) :
    sweepLevels oracle mainCls iters mg p (t :: ts) recs best ni =
      .error (.run e) := by
  simp [sweepLevels, h]

theorem sweepLevels_cons_continue {oracle : ℕ → ℕ → ProcResult}
    {mainCls : String} {iters : ℕ} {mg : ℚ} {p t : ℕ} {ts : List ℕ}
    {recs : List SweepRec} {best : Option ℚ} {ni : ℕ} {times : List ℤ}
    {b' : Option ℚ} {ni' : ℕ} {g : Option ℚ}
    (h1 : collectTimes oracle mainCls t iters = .ok times)
    (h2 : times ≠ [])
    (h3 : stepSweep mg p best ni (listMean times) = .ok ⟨b', ni', false, g⟩) :
    sweepLevels oracle mainCls iters mg p (t :: ts) recs best ni =
      sweepLevels oracle mainCls iters mg p ts (recs ++ levelRecords t times)
        b' ni' := by
  simp only [sweepLevels, h1]
  rw [if_neg (by simp [List.isEmpty_iff, h2])]
  simp only [h3]
  simp

theorem sweepLevels_cons_brk {oracle : ℕ → ℕ → ProcResult}
    {mainCls : String} {iters : ℕ} {mg : ℚ} {p t : ℕ} {ts : List ℕ}
    {recs : List SweepRec} {best : Option ℚ} {ni : ℕ} {times : List ℤ}
    {b' : Option ℚ} {ni' : ℕ} {g : Option ℚ}
    (h1 : collectTimes oracle mainCls t iters = .ok times)
    (h2 : times ≠ [])
    (h3 : stepSweep mg p best ni (listMean times) = .ok ⟨b', ni', true, g⟩) :
    sweepLevels oracle mainCls iters mg p (t :: ts) recs best ni =
      .ok (recs ++ levelRecords t times) := by
  simp only [sweepLevels, h1]
  rw [if_neg (by simp [List.isEmpty_iff, h2])]
  simp only [h3]
  simp

theorem sweepLevels_acc_prefix {oracle : ℕ → ℕ → ProcResult}
    {mainCls : String} {iters : ℕ} {mg : ℚ} {p : ℕ} :
    ∀ {ls : List ℕ} {recs : List SweepRec} {best : Option ℚ} {ni : ℕ}
      {out : List SweepRec},
      sweepLevels oracle mainCls iters mg p ls recs best ni = .ok out →
      recs <+: out := by
  intro ls
  induction ls with
  | nil =>
    intro recs best ni out h
    simp only [sweepLevels] at h
    cases h
    exact List.prefix_rfl
  | cons t ts ih =>
    intro recs best ni out h
    simp only [sweepLevels] at h
    rcases hc : collectTimes oracle mainCls t iters with e | times <;> rw [hc] at h
    · exact absurd h (by simp)
    · by_cases hne : times.isEmpty <;> simp only [hne, if_true, if_false] at h
      · exact absurd h (by simp)
      · rcases hs : stepSweep mg p best ni (listMean times) with e | o <;> rw [hs] at h
        · exact absurd h (by simp)
        · by_cases hb : o.brk <;> simp only [hb, if_true, if_false] at h
          · cases h
            exact List.prefix_append recs _
          · exact (List.prefix_append recs _).trans (ih h)

theorem sweepLevels_run_error {oracle : ℕ → ℕ → ProcResult}
    {mainCls : String} {iters : ℕ} {mg : ℚ} {p : ℕ} :
    ∀ {ls : List ℕ} {recs : List SweepRec} {best : Option ℚ} {ni : ℕ}
      {e : RunErr},
      sweepLevels oracle mainCls iters mg p ls recs best ni = .error (.run e) →
      ∃ t ∈ ls, collectTimes oracle mainCls t iters = .error e := by
  intro ls
  induction ls with
  | nil =>
    intro recs best ni e h
    exact absurd h (by simp [sweepLevels])
  | cons t ts ih =>
    intro recs best ni e h
    simp only [sweepLevels] at h
    rcases hc : collectTimes oracle mainCls t iters with e' | times <;> rw [hc] at h
    · cases h
      exact ⟨t, List.mem_cons_self _ _, hc⟩
    · by_cases hne : times.isEmpty <;> simp only [hne, if_true, if_false] at h
      · exact absurd h (by simp)
      · rcases hs : stepSweep mg p best ni (listMean times) with e' | o <;> rw [hs] at h
        · cases h
          exact absurd (stepSweep_error_eq hs) (by simp)
        · by_cases hb : o.brk <;> simp only [hb, if_true, if_false] at h
          · exact absurd h (by simp)
          · obtain ⟨u, hu, hue⟩ := ih h
            exact ⟨u, List.mem_cons_of_mem t hu, hue⟩

theorem runJava_execFailure_cmd {mainCls : String} {t : ℕ} {res : ProcResult}
    {cmd : List String} {out err : List Char}
    (h : runJava mainCls t res = .error (.execFailure cmd out err)) :
    cmd = javaCmd mainCls t := by
  by_cases h0 : res.returncode ≠ 0
  · simp only [runJava, if_pos h0] at h
    simp only [Except.error.injEq, RunErr.execFailure.injEq] at h
    exact h.1.symm
  · simp only [runJava, if_neg h0] at h
    rcases hl : (splitlines (pyStrip res.stdout)).getLast? with _ | line <;>
      simp only [hl] at h
    · simp at h
    · rcases hf : firstBranchTok line with _ | v <;> simp only [hf] at h
      · rcases hr : reSearchMs line with _ | n <;> simp only [hr] at h
        · simp at h
        · simp at h
      · simp at h

/-! ## Sample collector claim -/

/-- **C5** (Sample Collector statistics): with `N ≥ 1` trials all succeeding,
the collector invokes the adapter exactly `N` times in sequence (trial
indices `1..N` in order), records the `N` measurements in order with 1-based
run indices, reports the arithmetic mean of the samples, and reports as
standard deviation the population (not Bessel-corrected) standard deviation,
which is `0` when `N = 1`. -/
theorem C5_sample_collector (oracle : ℕ → ℕ → ProcResult) (mainCls : String)
    (t N : ℕ) (v : ℕ → ℤ) (hN : 1 ≤ N)
    (hsucc : ∀ i, 1 ≤ i → i ≤ N → runJava mainCls t (oracle t i) = .ok (v i)) :
    collectTimes oracle mainCls t N = .ok ((List.range' 1 N).map v) ∧
    ((List.range' 1 N).map v).length = N ∧
    (levelRecords t ((List.range' 1 N).map v)).map SweepRec.run_idx =
      List.range' 1 N ∧
    (levelRecords t ((List.range' 1 N).map v)).map SweepRec.ms =
      (List.range' 1 N).map v ∧
    listMean ((List.range' 1 N).map v) =
      ((((List.range' 1 N).map v).sum : ℤ) : ℚ) / (N : ℚ) ∧
    levelStdSq ((List.range' 1 N).map v) =
      specPopVariance ((List.range' 1 N).map v) ∧
    (N = 1 → levelStdSq ((List.range' 1 N).map v) = 0) := by
  have hlen : ((List.range' 1 N).map v).length = N := by
    simp [List.length_range']
  refine ⟨?_, hlen, ?_, levelRecords_map_ms t _, ?_, ?_, ?_⟩
  · exact collectList_ok fun i hi => by
      rcases List.mem_range'_1.mp hi with ⟨h1, h2⟩
      exact hsucc i h1 (by omega)
  · rw [levelRecords_map_run_idx, hlen]
  · rw [listMean, hlen]
  · rcases Nat.lt_or_ge 1 N with h2 | h2
    · rw [levelStdSq, if_pos (by rw [hlen]; exact h2)]
      rfl
    · have hN1 : N = 1 := by omega
      subst hN1
      rw [levelStdSq, if_neg (by rw [hlen]; omega)]
      show (0 : ℚ) = specPopVariance [v 1]
      norm_num [specPopVariance]
  · intro hN1
    subst hN1
    rw [levelStdSq, if_neg (by rw [hlen]; omega)]

/-- Witness for C5: two successful trials reporting `7 ms` each; the
collector returns both measurements with run indices `1, 2`, mean `7`, and
population variance equal for code and spec. -/
theorem C5_witness :
    collectTimes (fun _ _ => okProc "7 ms") "app.Main" 1 2 =
      .ok ((List.range' 1 2).map fun _ => (7 : ℤ)) ∧
    (levelRecords 1 ((List.range' 1 2).map fun _ => (7 : ℤ))).map
      SweepRec.run_idx = List.range' 1 2 ∧
    levelStdSq ((List.range' 1 2).map fun _ => (7 : ℤ)) =
      specPopVariance ((List.range' 1 2).map fun _ => (7 : ℤ)) := by
  have h := C5_sample_collector (fun _ _ => okProc "7 ms") "app.Main" 1 2
    (fun _ => (7 : ℤ)) (by norm_num) (fun i h1 h2 => by
      show runJava "app.Main" 1 (okProc "7 ms") = .ok 7
      decide)
  exact ⟨h.1, h.2.2.1, h.2.2.2.2.2.1⟩

/-! ## Sweep failure propagation (C7) -/

/-- **C7, corrected** (sweep failure propagation): a failing first trial
aborts the whole sweep — no record set is returned and no partial sample set
survives — and an execution failure surfaces with the failed `java` command,
which identifies the concurrency level; the trial index, however, is not
part of the surfaced failure (see `C7_trial_index_lost`). -/
theorem C7_failure_propagation :
    (∀ (oracle : ℕ → ℕ → ProcResult) (mainCls : String) (iters : ℕ) (mg : ℚ)
      (p tmin tmax : ℕ) (e : RunErr), 1 ≤ iters → tmin ≤ tmax →
      runJava mainCls tmin (oracle tmin 1) = .error e →
      sweepThreads oracle mainCls iters mg p tmin tmax = .error (.run e)) ∧
    (∀ (oracle : ℕ → ℕ → ProcResult) (mainCls : String) (iters : ℕ) (mg : ℚ)
      (p tmin tmax : ℕ) (cmd : List String) (out err : List Char),
      sweepThreads oracle mainCls iters mg p tmin tmax =
        .error (.run (.execFailure cmd out err)) →
      ∃ t, tmin ≤ t ∧ t ≤ tmax ∧ cmd = javaCmd mainCls t) := by
  constructor
  · intro oracle mainCls iters mg p tmin tmax e h1 h2 hfail
    have hc : collectTimes oracle mainCls tmin iters = .error e := by
      rw [collectTimes, show iters = (iters - 1) + 1 from by omega,
        List.range'_succ]
      simp [collectList, hfail]
    rw [sweepThreads, show tmax + 1 - tmin = (tmax - tmin) + 1 from by omega,
      List.range'_succ]
    exact sweepLevels_cons_err hc
  · intro oracle mainCls iters mg p tmin tmax cmd out err h
    obtain ⟨t, ht, hte⟩ := sweepLevels_run_error h
    obtain ⟨h1, h2⟩ := List.mem_range'_1.mp ht
    obtain ⟨i, _, hie⟩ := collectList_error_mem hte
    exact ⟨t, h1, by omega, runJava_execFailure_cmd hie⟩

/-- Witness for C7 (amended form): the all-failing oracle aborts a concrete
sweep with the level-1 execution failure, whose command names level 1. -/
theorem C7_witness :
    sweepThreads failAtFirstOracle "app.Main" 2 (2/100) 2 1 3 =
      .error (.run (.execFailure (javaCmd "app.Main" 1) [] [])) ∧
    ∃ t, 1 ≤ t ∧ t ≤ 3 ∧ javaCmd "app.Main" 1 = javaCmd "app.Main" t := by
  have h1 := C7_failure_propagation.1 failAtFirstOracle "app.Main" 2 (2/100)
    2 1 3 (.execFailure (javaCmd "app.Main" 1) [] [])
    (by norm_num) (by norm_num) (by decide)
  exact ⟨h1, C7_failure_propagation.2 failAtFirstOracle "app.Main" 2 (2/100)
    2 1 3 (javaCmd "app.Main" 1) [] [] h1⟩

/-- Counterexample to **C7 as stated**: two sweeps whose execution fails at
different trial indices (trial 1 of level 1 for `failAtFirstOracle`, trial 2
of level 1 for `failAtSecondOracle`) surface the *identical* failure value,
so the surfaced failure cannot carry the trial index at which it occurred. -/
theorem C7_counterexample :
    runJava "app.Main" 1 (failAtFirstOracle 1 1) =
      .error (.execFailure (javaCmd "app.Main" 1) [] []) ∧
    runJava "app.Main" 1 (failAtSecondOracle 1 1) = .ok 7 ∧
    runJava "app.Main" 1 (failAtSecondOracle 1 2) =
      .error (.execFailure (javaCmd "app.Main" 1) [] []) ∧
    sweepThreads failAtFirstOracle "app.Main" 2 (2/100) 2 1 3 =
      sweepThreads failAtSecondOracle "app.Main" 2 (2/100) 2 1 3 := by
  refine ⟨by decide, by decide, by decide, ?_⟩
  have hcA : collectTimes failAtFirstOracle "app.Main" 1 2 =
      .error (.execFailure (javaCmd "app.Main" 1) [] []) := by decide
  have hcB : collectTimes failAtSecondOracle "app.Main" 1 2 =
      .error (.execFailure (javaCmd "app.Main" 1) [] []) := by decide
  have hA := @sweepLevels_cons_err failAtFirstOracle "app.Main" 2 (2/100) 2 1
    (List.range' 2 2) [] none 0 _ hcA
  have hB := @sweepLevels_cons_err failAtSecondOracle "app.Main" 2 (2/100) 2 1
    (List.range' 2 2) [] none 0 _ hcB
  rw [sweepThreads, sweepThreads, show (3 + 1 - 1 : ℕ) = 3 from rfl,
    show List.range' 1 3 = 1 :: List.range' 2 2 from rfl, hA, hB]

/-! ## First level always becomes the best (C10) -/

/-- **C10** (first level always becomes the best): with `best_mean` still
infinite, every mean takes the strict-improvement branch (counter reset to
`0`, no break, logged gain `1.0`), so early stopping can never trigger at the
first level; consequently any sweep over `tmin ≤ tmax` with `iters ≥ 1` that
returns a record set returns one that starts with the complete sample set of
level `tmin` — for any patience value, including `0`. -/
theorem C10_first_level_best :
    (∀ (mg : ℚ) (p ni : ℕ) (m : ℚ),
      stepSweep mg p none ni m = .ok ⟨some m, 0, false, some 1⟩) ∧
    (∀ (oracle : ℕ → ℕ → ProcResult) (mainCls : String) (iters : ℕ) (mg : ℚ)
      (p tmin tmax : ℕ) (recs : List SweepRec),
      tmin ≤ tmax → 1 ≤ iters →
      sweepThreads oracle mainCls iters mg p tmin tmax = .ok recs →
      ∃ times, collectTimes oracle mainCls tmin iters = .ok times ∧
        times.length = iters ∧ levelRecords tmin times <+: recs) := by
  constructor
  · intro mg p ni m
    rfl
  · intro oracle mainCls iters mg p tmin tmax recs h1 h2 hok
    rw [sweepThreads, show tmax + 1 - tmin = (tmax - tmin) + 1 from by omega,
      List.range'_succ] at hok
    rcases hc : collectTimes oracle mainCls tmin iters with e | times
    · rw [sweepLevels_cons_err hc] at hok
      exact absurd hok (by simp)
    · have hlen : times.length = iters := by
        rw [collectList_length hc, List.length_range']
      have hne : times ≠ [] := by
        intro h0
        rw [h0] at hlen
        simp at hlen
        omega
      have hs : stepSweep mg p none 0 (listMean times) =
          .ok ⟨some (listMean times), 0, false, some 1⟩ := rfl
      rw [sweepLevels_cons_continue hc hne hs] at hok
      refine ⟨times, rfl, hlen, ?_⟩
      have := sweepLevels_acc_prefix hok
      simpa using this

/-- Witness for C10: a concrete two-level sweep (equal means, patience 1)
stops early at level 2 but still returns the full level-1 sample set as a
prefix of its records. -/
theorem C10_witness :
    ∃ times, collectTimes (fun _ _ => okProc "10 ms") "app.Main" 1 1 =
        .ok times ∧ times.length = 1 ∧
      levelRecords 1 times <+: [⟨1, 1, 10⟩, ⟨2, 1, 10⟩] := by
  apply C10_first_level_best.2 (fun _ _ => okProc "10 ms") "app.Main" 1
    (2/100) 1 1 2 [⟨1, 1, 10⟩, ⟨2, 1, 10⟩] (by norm_num) (by norm_num)
  have hc1 : collectTimes (fun _ _ => okProc "10 ms") "app.Main" 1 1 =
      .ok [10] := by decide
  have hc2 : collectTimes (fun _ _ => okProc "10 ms") "app.Main" 2 1 =
      .ok [10] := by decide
  have hmean : listMean [10] = 10 := by norm_num [listMean]
  have hs1 : stepSweep (2/100) 1 none 0 (listMean [10]) =
      .ok ⟨some (listMean [10]), 0, false, some 1⟩ := rfl
  have hs2 : stepSweep (2/100) 1 (some (listMean [10])) 0 (listMean [10]) =
      .ok ⟨some (listMean [10]), 1, true, none⟩ := by
    rw [stepSweep]
    rw [if_neg (by rw [hmean]; norm_num [eps]), if_neg (by rw [hmean]; norm_num),
      if_neg (by rw [hmean]; norm_num [eps])]
    rfl
  rw [sweepThreads, show (2 + 1 - 1 : ℕ) = 2 from rfl,
    show List.range' 1 2 = [1, 2] from rfl,
    sweepLevels_cons_continue hc1 (by simp) hs1,
    sweepLevels_cons_brk hc2 (by simp) hs2]
  simp [levelRecords, hmean]

/-! ## Early stopping by patience (C2) -/

/-- The non-improving step: a level failing both the strict-improvement test
and the gain test, against a finite nonzero best, increments the counter and
breaks exactly when the counter meets `patience`. -/
theorem stepSweep_no_gain {mg : ℚ} {p ni : ℕ} {b m : ℚ} (hb : b ≠ 0)
    (hni : ¬(m + eps < b)) (hg : (b - m) / b < mg) :
    stepSweep mg p (some b) ni m =
      .ok ⟨some b, ni + 1, decide (p ≤ ni + 1), none⟩ := by
  simp only [stepSweep]
  rw [if_neg hni, if_neg hb, if_neg (not_le.mpr hg)]

/-- Core induction for early stopping: starting from counter `ni`, a run of
`m = p − ni ≥ 1` consecutive levels that all fail both tests drives the
counter to `p` and breaks at level `t + m − 1`, returning exactly the
accumulated records plus those `m` levels' records; the levels in `rest` are
never evaluated. -/
theorem sweep_patience_aux (oracle : ℕ → ℕ → ProcResult) (mainCls : String)
    (iters : ℕ) (mg : ℚ) {p : ℕ} {b : ℚ} (hb : b ≠ 0) (times : ℕ → List ℤ) :
    ∀ (m t ni : ℕ) (rest : List ℕ) (recs : List SweepRec),
      ni + m = p → 1 ≤ m →
      (∀ k < m, collectTimes oracle mainCls (t + k) iters = .ok (times (t + k))) →
      (∀ k < m, times (t + k) ≠ []) →
      (∀ k < m, ¬(listMean (times (t + k)) + eps < b)) →
      (∀ k < m, (b - listMean (times (t + k))) / b < mg) →
      sweepLevels oracle mainCls iters mg p (List.range' t m ++ rest) recs
          (some b) ni =
        .ok (recs ++
          ((List.range' t m).map fun u => levelRecords u (times u)).flatten) := by
  intro m
  induction m with
  | zero => omega
  | succ m ih =>
    intro t ni rest recs hnp _ hcoll hne hnoimp hgain
    have hc0 := hcoll 0 (by omega)
    have hne0 := hne 0 (by omega)
    have hni0 := hnoimp 0 (by omega)
    have hg0 := hgain 0 (by omega)
    rw [Nat.add_zero] at hc0 hne0 hni0 hg0
    rcases Nat.eq_zero_or_pos m with rfl | hm1
    · have hstep : stepSweep mg p (some b) ni (listMean (times t)) =
          .ok ⟨some b, ni + 1, true, none⟩ := by
        rw [stepSweep_no_gain hb hni0 hg0, decide_eq_true (by omega : p ≤ ni + 1)]
      rw [show List.range' t 1 ++ rest = t :: rest from by simp,
        sweepLevels_cons_brk hc0 hne0 hstep]
      simp
    · have hstep : stepSweep mg p (some b) ni (listMean (times t)) =
          .ok ⟨some b, ni + 1, false, none⟩ := by
        rw [stepSweep_no_gain hb hni0 hg0, decide_eq_false (by omega : ¬p ≤ ni + 1)]
      rw [List.range'_succ, List.cons_append,
        sweepLevels_cons_continue hc0 hne0 hstep,
        ih (t + 1) (ni + 1) rest (recs ++ levelRecords t (times t))
          (by omega) (by omega)
          (fun k hk => by
            have := hcoll (k + 1) (by omega)
            rwa [show t + (k + 1) = t + 1 + k from by omega] at this)
          (fun k hk => by
            have := hne (k + 1) (by omega)
            rwa [show t + (k + 1) = t + 1 + k from by omega] at this)
          (fun k hk => by
            have := hnoimp (k + 1) (by omega)
            rwa [show t + (k + 1) = t + 1 + k from by omega] at this)
          (fun k hk => by
            have := hgain (k + 1) (by omega)
            rwa [show t + (k + 1) = t + 1 + k from by omega] at this)]
      simp [List.append_assoc]

/-- **C2** (early stopping by patience): from any sweep state with counter
`ni < p` and a finite nonzero best mean `b`, once the next `p − ni`
consecutive levels fail both the strict-improvement test and the gain test,
the counter reaches `p` and the sweep terminates at level `t + (p − ni) − 1`
without evaluating any of the remaining levels (`rest` is arbitrary and
unused); the returned record set contains the stopping level's records, and
its maximum concurrency level is exactly the stopping level. -/
theorem C2_early_stopping (oracle : ℕ → ℕ → ProcResult) (mainCls : String)
    (iters : ℕ) (mg : ℚ) (p ni : ℕ) (hni : ni < p) (b : ℚ) (hb : b ≠ 0)
    (times : ℕ → List ℤ) (t : ℕ) (rest : List ℕ) (recs : List SweepRec)
    (hrecs : ∀ r ∈ recs, r.threads < t)
    (hcoll : ∀ k < p - ni,
      collectTimes oracle mainCls (t + k) iters = .ok (times (t + k)))
    (hne : ∀ k < p - ni, times (t + k) ≠ [])
    (hnoimp : ∀ k < p - ni, ¬(listMean (times (t + k)) + eps < b))
    (hgain : ∀ k < p - ni, (b - listMean (times (t + k))) / b < mg) :
    sweepLevels oracle mainCls iters mg p (List.range' t (p - ni) ++ rest) recs
        (some b) ni =
      .ok (recs ++
        ((List.range' t (p - ni)).map fun u => levelRecords u (times u)).flatten) ∧
    (∀ r ∈ recs ++
        ((List.range' t (p - ni)).map fun u => levelRecords u (times u)).flatten,
      r.threads ≤ t + (p - ni) - 1) ∧
    (∃ r ∈ recs ++
        ((List.range' t (p - ni)).map fun u => levelRecords u (times u)).flatten,
      r.threads = t + (p - ni) - 1) := by
  have hm : 1 ≤ p - ni := by omega
  refine ⟨sweep_patience_aux oracle mainCls iters mg hb times (p - ni) t ni rest
    recs (by omega) hm hcoll hne hnoimp hgain, ?_, ?_⟩
  · intro r hr
    rcases List.mem_append.mp hr with h | h
    · have := hrecs r h
      omega
    · rw [List.mem_flatten] at h
      obtain ⟨l, hl, hrl⟩ := h
      rw [List.mem_map] at hl
      obtain ⟨u, hu, rfl⟩ := hl
      obtain ⟨hu1, hu2⟩ := List.mem_range'_1.mp hu
      rw [levelRecords_threads hrl]
      omega
  · have hu : t + (p - ni) - 1 ∈ List.range' t (p - ni) :=
      List.mem_range'_1.mpr ⟨by omega, by omega⟩
    have hnelast : times (t + (p - ni) - 1) ≠ [] := by
      have := hne (p - ni - 1) (by omega)
      rwa [show t + (p - ni - 1) = t + (p - ni) - 1 from by omega] at this
    obtain ⟨r, hr⟩ := List.exists_mem_of_ne_nil _ (levelRecords_ne_nil hnelast)
    refine ⟨r, ?_, levelRecords_threads hr⟩
    rw [List.mem_append, List.mem_flatten]
    exact Or.inr ⟨_, List.mem_map.mpr ⟨_, hu, rfl⟩, hr⟩

/-- The constant `10 ms` oracle succeeds with `10` at every level and trial
(the level and class only affect the error path). -/
theorem runJava_okProc10 (mainCls : String) (t : ℕ) :
    runJava mainCls t (okProc "10 ms") = .ok 10 := by
  simp only [runJava]
  rw [if_neg (by decide)]
  rfl

/-- One-trial collection from the constant `10 ms` oracle. -/
theorem collectTimes_okProc10 (t : ℕ) :
    collectTimes (fun _ _ => okProc "10 ms") "app.Main" t 1 = .ok [10] := by
  rw [collectTimes, show List.range' 1 1 = [1] from rfl]
  simp only [collectList, runJava_okProc10]

/-- Witness for C2: `patience = 2`, counter `0`, best `10`; two consecutive
levels (`2`, `3`) measuring `10 ms` fail both tests, and the sweep stops at
level `3` — levels `4` and `5` are never evaluated. -/
theorem C2_witness :
    sweepLevels (fun _ _ => okProc "10 ms") "app.Main" 1 (2/100) 2
        (List.range' 2 (2 - 0) ++ [4, 5]) [⟨1, 1, 10⟩] (some 10) 0 =
      .ok ([⟨1, 1, 10⟩] ++
        ((List.range' 2 (2 - 0)).map fun u => levelRecords u [10]).flatten) ∧
    (∃ r ∈ [(⟨1, 1, 10⟩ : SweepRec)] ++
        ((List.range' 2 (2 - 0)).map fun u => levelRecords u [10]).flatten,
      r.threads = 2 + (2 - 0) - 1) := by
  have h := C2_early_stopping (fun _ _ => okProc "10 ms") "app.Main" 1 (2/100)
    2 0 (by norm_num) 10 (by norm_num) (fun _ => [10]) 2 [4, 5] [⟨1, 1, 10⟩]
    (by intro r hr; simp at hr; subst hr; norm_num)
    (fun k _ => collectTimes_okProc10 (2 + k))
    (fun _ _ => by simp)
    (fun _ _ => by norm_num [listMean, eps])
    (fun _ _ => by norm_num [listMean])
  exact ⟨h.1, h.2.2⟩

/-! ## Exhaustion on monotone improvement (C4) -/

/-- Core induction for exhaustion: if every remaining level strictly improves
(`mean + ε` below the running best, which after the first level is the
previous level's mean), the sweep walks through all of them, never breaking,
and returns every level's records. -/
theorem sweep_exhaust_aux (oracle : ℕ → ℕ → ProcResult) (mainCls : String)
    (iters : ℕ) (mg : ℚ) (p : ℕ) (times : ℕ → List ℤ) :
    ∀ (m t : ℕ) (best : Option ℚ) (ni : ℕ) (recs : List SweepRec),
      (∀ k < m, collectTimes oracle mainCls (t + k) iters = .ok (times (t + k))) →
      (∀ k < m, times (t + k) ≠ []) →
      (∀ k < m, 0 ≤ listMean (times (t + k))) →
      (∀ k, k + 1 < m → listMean (times (t + k + 1)) + eps < listMean (times (t + k))) →
      (∀ b0, best = some b0 → 1 ≤ m →
        0 < b0 ∧ listMean (times t) + eps < b0) →
      sweepLevels oracle mainCls iters mg p (List.range' t m) recs best ni =
        .ok (recs ++
          ((List.range' t m).map fun u => levelRecords u (times u)).flatten) := by
  intro m
  induction m with
  | zero =>
    intro t best ni recs _ _ _ _ _
    simp [sweepLevels]
  | succ m ih =>
    intro t best ni recs hcoll hne hpos hdec hbest
    have hc0 := hcoll 0 (by omega)
    have hne0 := hne 0 (by omega)
    rw [Nat.add_zero] at hc0 hne0
    have hstep : ∃ g, stepSweep mg p best ni (listMean (times t)) =
        .ok ⟨some (listMean (times t)), 0, false, g⟩ := by
      rcases best with _ | b0
      · exact ⟨some 1, rfl⟩
      · obtain ⟨hb0, himp⟩ := hbest b0 rfl (by omega)
        refine ⟨some ((b0 - listMean (times t)) / b0), ?_⟩
        simp only [stepSweep]
        rw [if_pos himp, if_neg (ne_of_gt hb0)]
    obtain ⟨g, hstep⟩ := hstep
    · rw [List.range'_succ, sweepLevels_cons_continue hc0 hne0 hstep,
        ih (t + 1) (some (listMean (times t))) 0 (recs ++ levelRecords t (times t))
          (fun k hk => by
            have := hcoll (k + 1) (by omega)
            rwa [show t + (k + 1) = t + 1 + k from by omega] at this)
          (fun k hk => by
            have := hne (k + 1) (by omega)
            rwa [show t + (k + 1) = t + 1 + k from by omega] at this)
          (fun k hk => by
            have := hpos (k + 1) (by omega)
            rwa [show t + (k + 1) = t + 1 + k from by omega] at this)
          (fun k hk => by
            have := hdec (k + 1) (by omega)
            rwa [show t + (k + 1) + 1 = t + 1 + k + 1 from by omega,
              show t + (k + 1) = t + 1 + k from by omega] at this)
          (fun b0 hb0 hm1 => by
            injection hb0 with hb0
            subst hb0
            have hd := hdec 0 (by omega)
            simp only [Nat.add_zero] at hd
            have hp1 := hpos 1 (by omega)
            constructor
            · have := eps_pos
              linarith
            · exact hd)]
      simp [List.append_assoc]

/-- **C4** (exhaustion on monotone improvement): when every successive
level's mean strictly decreases (`mean_{t+1} + ε < mean_t`) up to `tmax`,
with all trials succeeding and nonnegative means, the sweep never stops
early: it evaluates every level from `tmin` to `tmax` inclusive and every
such level appears in the returned record set. -/
theorem C4_exhaustion (oracle : ℕ → ℕ → ProcResult) (mainCls : String)
    (iters : ℕ) (mg : ℚ) (p tmin tmax : ℕ) (h : tmin ≤ tmax)
    (times : ℕ → List ℤ)
    (hcoll : ∀ t, tmin ≤ t → t ≤ tmax →
      collectTimes oracle mainCls t iters = .ok (times t))
    (hne : ∀ t, tmin ≤ t → t ≤ tmax → times t ≠ [])
    (hpos : ∀ t, tmin ≤ t → t ≤ tmax → 0 ≤ listMean (times t))
    (hdec : ∀ t, tmin ≤ t → t < tmax →
      listMean (times (t + 1)) + eps < listMean (times t)) :
    sweepThreads oracle mainCls iters mg p tmin tmax =
      .ok (((List.range' tmin (tmax + 1 - tmin)).map
        fun u => levelRecords u (times u)).flatten) ∧
    ∀ t, tmin ≤ t → t ≤ tmax →
      ∃ r ∈ ((List.range' tmin (tmax + 1 - tmin)).map
        fun u => levelRecords u (times u)).flatten, r.threads = t := by
  constructor
  · rw [sweepThreads,
      sweep_exhaust_aux oracle mainCls iters mg p times (tmax + 1 - tmin) tmin
        none 0 []
        (fun k hk => hcoll (tmin + k) (by omega) (by omega))
        (fun k hk => hne (tmin + k) (by omega) (by omega))
        (fun k hk => hpos (tmin + k) (by omega) (by omega))
        (fun k hk => hdec (tmin + k) (by omega) (by omega))
        (fun b0 hb0 _ => by cases hb0)]
    simp
  · intro t h1 h2
    have hu : t ∈ List.range' tmin (tmax + 1 - tmin) :=
      List.mem_range'_1.mpr ⟨h1, by omega⟩
    obtain ⟨r, hr⟩ :=
      List.exists_mem_of_ne_nil _ (levelRecords_ne_nil (hne t h1 h2))
    refine ⟨r, ?_, levelRecords_threads hr⟩
    rw [List.mem_flatten]
    exact ⟨_, List.mem_map.mpr ⟨_, hu, rfl⟩, hr⟩

/-- Witness for C4: levels `1` and `2` measure `9 ms` then `8 ms` (strictly
decreasing); the sweep is exhaustive and both levels appear in the records. -/
theorem C4_witness :
    sweepThreads (fun t _ => if t = 1 then okProc "9 ms" else okProc "8 ms")
        "app.Main" 1 (2/100) 2 1 2 =
      .ok (((List.range' 1 (2 + 1 - 1)).map
        fun u => levelRecords u (if u = 1 then [9] else [8])).flatten) ∧
    ∃ r ∈ ((List.range' 1 (2 + 1 - 1)).map
        fun u => levelRecords u (if u = 1 then [9] else [8])).flatten,
      r.threads = 2 := by
  have h := C4_exhaustion
    (fun t _ => if t = 1 then okProc "9 ms" else okProc "8 ms") "app.Main" 1
    (2/100) 2 1 2 (by norm_num) (fun t => if t = 1 then [9] else [8])
    (fun t h1 h2 => by
      interval_cases t
      · show collectTimes _ "app.Main" 1 1 = .ok [9]
        decide
      · show collectTimes _ "app.Main" 2 1 = .ok [8]
        decide)
    (fun t h1 h2 => by interval_cases t <;> simp)
    (fun t h1 h2 => by interval_cases t <;> norm_num [listMean])
    (fun t h1 h2 => by interval_cases t; norm_num [listMean, eps])
  exact ⟨h.1, h.2 2 (by norm_num) (by norm_num)⟩

/-! ## Baseline speedup identity (C8) -/

/-- **C8** (baseline speedup identity): when the sequential level-1 baseline
group is present with positive mean, `plot_results` computes a speedup table
in which every configuration's speedup equals `baseline_mean / config_mean`,
and the baseline configuration's own speedup is exactly `1.0`. -/
theorem C8_baseline_speedup (rows : List CsvRow)
    (hbase : ¬(rows.filter fun r => r.version = "seq" ∧ r.threads = 1).isEmpty = true)
    (hpos : 0 < groupMean rows "seq" 1) :
    speedupTable rows =
      .ok ((configsOf rows).map fun c =>
        (c.1, c.2, groupMean rows "seq" 1 / groupMean rows c.1 c.2)) ∧
    (∀ c ∈ (configsOf rows).map fun c =>
        (c.1, c.2, groupMean rows "seq" 1 / groupMean rows c.1 c.2),
      c.2.2 = groupMean rows "seq" 1 / groupMean rows c.1 c.2.1) ∧
    ("seq", 1, (1 : ℚ)) ∈ (configsOf rows).map fun c =>
        (c.1, c.2, groupMean rows "seq" 1 / groupMean rows c.1 c.2) := by
  refine ⟨?_, ?_, ?_⟩
  · rw [speedupTable, if_neg hbase]
  · intro c hc
    rw [List.mem_map] at hc
    obtain ⟨d, _, rfl⟩ := hc
    rfl
  · have hmem : ("seq", 1) ∈ configsOf rows := by
      rcases hf : rows.filter fun r => r.version = "seq" ∧ r.threads = 1 with
        _ | ⟨r, rest⟩
      · rw [hf] at hbase
        simp at hbase
      · have hr : r ∈ rows.filter fun r => r.version = "seq" ∧ r.threads = 1 := by
          rw [hf]
          exact List.mem_cons_self _ _
        have hrm := List.mem_of_mem_filter hr
        have hrp := List.of_mem_filter hr
        simp only [decide_eq_true_eq] at hrp
        rw [configsOf, List.mem_dedup]
        exact List.mem_map.mpr ⟨r, hrm, by rw [hrp.1, hrp.2]⟩
    refine List.mem_map.mpr ⟨("seq", 1), hmem, ?_⟩
    rw [div_self (ne_of_gt hpos)]

/-- Witness for C8: concrete rows with a `("seq", 1)` baseline of mean `10`
and a `("par", 5)` group; the baseline's table entry is `("seq", 1, 1)`. -/
theorem C8_witness :
    ("seq", 1, (1 : ℚ)) ∈ (configsOf [⟨"seq", 1, 10⟩, ⟨"par", 5, 2⟩]).map
      fun c => (c.1, c.2,
        groupMean [⟨"seq", 1, 10⟩, ⟨"par", 5, 2⟩] "seq" 1 /
          groupMean [⟨"seq", 1, 10⟩, ⟨"par", 5, 2⟩] c.1 c.2) :=
  (C8_baseline_speedup [⟨"seq", 1, 10⟩, ⟨"par", 5, 2⟩] (by decide)
    (by norm_num [groupMean, groupMs, List.filter])).2.2

/-- Witness for C6: the hypothesis-bearing conjuncts applied at concrete
inputs — a non-zero exit yields the execution failure with the level-3
command; an all-letters final line yields a parse failure; the bare digit
string `"2055"` parses to `2055`. -/
theorem C6_witness :
    runJava "app.Main" 3 ⟨1, ['x'], ['y']⟩ =
      .error (.execFailure (javaCmd "app.Main" 3) ['x'] ['y']) ∧
    runJava "app.Main" 1 (okProc "abc") = .error (.parseFailure "abc".toList) ∧
    runJava "app.Main" 1 (okProc "2055") =
      .ok ((digitsToNat "2055".toList : ℕ) : ℤ) := by
  refine ⟨C6_execution_adapter.1 "app.Main" 3 ⟨1, ['x'], ['y']⟩ (by decide),
    C6_execution_adapter.2.1 "app.Main" 1 (okProc "abc") "abc".toList
      (by decide) (by decide) (by decide),
    C6_execution_adapter.2.2.1 "app.Main" 1 "2055".toList [] (by decide)
      (by decide)⟩

end ThreadSweep
